import Mathlib

/-!
Shallow embedding of the scheme-based I/O subsystem of the redox repository:
the TCP segment codec and TCP resource state machine
(src/filesystem/schemes/tcp/tcp.rs) and the file scheme
(src/kernel/schemes/file.rs).  Bytes are modelled as `Nat` values reduced
modulo 256 at every point where the source reads them as `u8`; 16- and 32-bit
header fields are read and written in network byte order, exactly as the
source's packed-struct pointer casts do on the wire representation.
-/

/-! ## TCP segment codec (tcp.rs, lines 13-66) -/

/-- A byte of a raw datagram; the source stores `u8`, so reads reduce mod 256. -/
def byteAt (b : List Nat) (i : Nat) : Nat := b.getD i 0 % 256

/-- Big-endian 16-bit read, as `n16::get` does on the packed header. -/
def read16 (b : List Nat) (i : Nat) : Nat := 256 * byteAt b i + byteAt b (i + 1)

/-- Big-endian 32-bit read, as `n32::get` does on the packed header. -/
def read32 (b : List Nat) (i : Nat) : Nat :=
  16777216 * byteAt b i + 65536 * byteAt b (i + 1) + 256 * byteAt b (i + 2) + byteAt b (i + 3)

/-- The packed TCP header (tcp.rs lines 15-24); every field is kept as the
numeric value obtained by a network-byte-order read. -/
structure TCPHeader where
  src : Nat
  dst : Nat
  sequence : Nat
  ack_num : Nat
  flags : Nat
  window_size : Nat
  checksum : Nat
  urgent_pointer : Nat
deriving DecidableEq

/-- A TCP segment: header, options and payload (tcp.rs lines 26-30). -/
structure TCP where
  header : TCPHeader
  options : List Nat
  data : List Nat
deriving DecidableEq

def TCP_FIN : Nat := 1

def TCP_SYN : Nat := 2

def TCP_RST : Nat := 4

def TCP_PSH : Nat := 8

def TCP_ACK : Nat := 16

/-- Reading the packed header out of the first 20 bytes of a datagram,
as the pointer cast `*(bytes.as_ptr() as *const TCPHeader)` does. -/
def readHeader (b : List Nat) : TCPHeader :=
  { src := read16 b 0
    dst := read16 b 2
    sequence := read32 b 4
    ack_num := read32 b 8
    flags := read16 b 12
    window_size := read16 b 14
    checksum := read16 b 16
    urgent_pointer := read16 b 18 }

/-- The encoded header length `((header.flags.get() & 0xF000) >> 10)` (tcp.rs line 43). -/
def headerLen (b : List Nat) : Nat := ((readHeader b).flags &&& 0xF000) >>> 10

/-- Outcome of `TCP::from_bytes`: `malformed` is the `None` return for short
inputs; `oob` is the Rust panic raised by the unchecked slice
`bytes[20..header_len]` when `header_len < 20` or `header_len > bytes.len()`;
`parsed` is the `Some` return. -/
inductive FromBytesResult where
  | malformed
  | oob
  | parsed (t : TCP)
deriving DecidableEq

/-- The parser `TCP::from_bytes` (tcp.rs lines 38-54).  The two slices
`bytes[20..header_len]` and `bytes[header_len..bytes.len()]` are in bounds
exactly when `20 ≤ header_len ≤ bytes.len()`; outside those bounds the Rust
slice operation panics, embedded here as `oob`. -/
def from_bytes (bytes : List Nat) : FromBytesResult :=
  if 20 ≤ bytes.length then
    if 20 ≤ headerLen bytes ∧ headerLen bytes ≤ bytes.length then
      .parsed { header := readHeader bytes
                options := (bytes.take (headerLen bytes)).drop 20
                data := bytes.drop (headerLen bytes) }
    else .oob
  else .malformed

/-- Big-endian 16-bit write. -/
def write16 (n : Nat) : List Nat := [n / 256 % 256, n % 256]

/-- Big-endian 32-bit write. -/
def write32 (n : Nat) : List Nat :=
  [n / 16777216 % 256, n / 65536 % 256, n / 256 % 256, n % 256]

/-- The 20 wire bytes of a packed header. -/
def TCPHeader.toBytes (h : TCPHeader) : List Nat :=
  write16 h.src ++ write16 h.dst ++ write32 h.sequence ++ write32 h.ack_num ++
  write16 h.flags ++ write16 h.window_size ++ write16 h.checksum ++ write16 h.urgent_pointer

/-- The serializer `TCP::to_bytes` (tcp.rs lines 56-66): packed header, then options, then data. -/
def to_bytes (t : TCP) : List Nat := t.header.toBytes ++ t.options ++ t.data

/-- The header fields fit their machine widths (`u16`/`u32`), as they always
do for a header held in the packed Rust struct. -/
def TCPHeader.Wf (h : TCPHeader) : Prop :=
  h.src < 65536 ∧ h.dst < 65536 ∧ h.sequence < 4294967296 ∧ h.ack_num < 4294967296 ∧
  h.flags < 65536 ∧ h.window_size < 65536 ∧ h.checksum < 65536 ∧ h.urgent_pointer < 65536

/-- A 21-byte datagram whose encoded header length is 20. -/
def exBytes1 : List Nat :=
  [0, 80, 156, 64, 0, 0, 0, 5, 0, 0, 0, 6, 80, 18, 255, 255, 0, 0, 0, 0, 99]

/-- A concrete segment with empty options and header length 20 (flags
`0x5012`, i.e. SYN|ACK with the length nibble 5). -/
def exSeg8 : TCP :=
  { header := { src := 80, dst := 40000, sequence := 5, ack_num := 6, flags := 20498
                window_size := 65535, checksum := 0, urgent_pointer := 0 }
    options := []
    data := [1, 2, 3] }

/-! ## TCP resource (tcp.rs, lines 68-326)

The connection state of `Resource`.  The underlying `ip` file is modelled by
its interaction script: each `ip.read_to_end` consumes the next entry of a
list of injected results (`none` = read failure, `some bytes` = a datagram),
and each `ip.write` result is injected where the source inspects it.  The
checksum helper `Checksum::compile`/`Checksum::sum` lives outside `src/`
(redox::net), so segment construction is parameterised by an arbitrary
checksum function `ck`, applied to the peer address, the header with a zeroed
checksum field, and the payload, exactly where the source fills in
`tcp.header.checksum.data`. -/

structure Resource where
  ip : Nat
  peer_addr : Nat
  peer_port : Nat
  host_port : Nat
  sequence : Nat
  acknowledge : Nat
deriving DecidableEq

/-- The type of the injected checksum computation. -/
def CK : Type := Nat → TCPHeader → List Nat → Nat

/-- The value `(mem::size_of::<TCPHeader>() << 10) & 0xF000`, the header-length nibble
every outgoing segment carries. -/
def hdrLenBits : Nat := (20 <<< 10) &&& 0xF000

/-- The header the source builds for every outgoing segment, before the
checksum is filled in: current ports, current counters, fixed window 65535
and urgent pointer 0. -/
def baseHeader (r : Resource) (flagbits : Nat) : TCPHeader :=
  { src := r.host_port
    dst := r.peer_port
    sequence := r.sequence
    ack_num := r.acknowledge
    flags := hdrLenBits ||| flagbits
    window_size := 65535
    checksum := 0
    urgent_pointer := 0 }

/-- An outgoing segment with empty options, the given extra flag bits and
payload, and the checksum filled in by `ck`. -/
def mkSegment (ck : CK) (r : Resource) (flagbits : Nat) (payload : List Nat) : TCP :=
  { header := { baseHeader r flagbits with
                  checksum := ck r.peer_addr (baseHeader r flagbits) payload }
    options := []
    data := payload }

/-- The SYN sent by `client_establish` (tcp.rs lines 233-246). -/
def clientSyn (ck : CK) (r : Resource) : TCP := mkSegment ck r TCP_SYN []

/-- The pure ACK sent after updating the counters (tcp.rs lines 111-126 and
281-296). -/
def pureAck (ck : CK) (r : Resource) : TCP := mkSegment ck r TCP_ACK []

/-- The PSH|ACK data segment sent by `Resource::write` (tcp.rs lines 162-176). -/
def dataSeg (ck : CK) (r : Resource) (buf : List Nat) : TCP :=
  mkSegment ck r (TCP_PSH ||| TCP_ACK) buf

/-- The masked flags `flags & (TCP_PSH | TCP_SYN | TCP_ACK)` every receive loop
applies. -/
def flagMask (seg : TCP) : Nat := seg.header.flags &&& (TCP_PSH ||| TCP_SYN ||| TCP_ACK)

/-- Outcome of a run of `client_establish`, `server_establish` or a receive
loop: `diverge` when the interaction script ends with the loop still
spinning, `crash` when a received datagram makes `from_bytes` perform an
out-of-bounds slice, and `done ok r sends` for a return of `ok` with final
state `r`, where `sends` lists every segment passed to `ip.write`. -/
inductive EstRes where
  | diverge
  | crash
  | done (ok : Bool) (r : Resource) (sends : List TCP)
deriving DecidableEq

/-- The receive loop of `client_establish` (tcp.rs lines 268-323): read a
datagram, skip it unless it parses and both ports match; on a matching
segment with flag mask SYN|ACK, update `sequence`/`acknowledge`, send a pure
ACK and succeed; on any other matching segment fail. -/
def estLoop (ck : CK) (r : Resource) (syn : TCP) :
    List (Option (List Nat)) → EstRes
  | [] => .diverge
  | Option.none :: _ => .done false r [syn]
  | some bytes :: rest =>
    match from_bytes bytes with
    | .malformed => estLoop ck r syn rest
    | .oob => .crash
    | .parsed seg =>
      if seg.header.dst = r.host_port ∧ seg.header.src = r.peer_port then
        if flagMask seg = TCP_SYN ||| TCP_ACK then
          .done true
            { r with sequence := seg.header.ack_num
                     acknowledge := (seg.header.sequence + 1) % 4294967296 }
            [syn, pureAck ck
              { r with sequence := seg.header.ack_num
                       acknowledge := (seg.header.sequence + 1) % 4294967296 }]
        else .done false r [syn]
      else estLoop ck r syn rest

/-- The handshake `Resource::client_establish` (tcp.rs lines 231-326): send the SYN; if the
IP write fails return failure, otherwise run the receive loop. -/
def client_establish (ck : CK) (r : Resource) (wr : Option Nat)
    (reads : List (Option (List Nat))) : EstRes :=
  match wr with
  | Option.none => .done false r [clientSyn ck r]
  | some _ => estLoop ck r (clientSyn ck r) reads

/-- Outcome of `Resource::read`: result value, final state, segments passed
to `ip.write`, and the bytes copied into the caller's buffer. -/
inductive ReadRes where
  | diverge
  | crash
  | done (res : Option Nat) (r : Resource) (sends : List TCP) (out : List Nat)
deriving DecidableEq

/-- The operation `Resource::read` (tcp.rs lines 97-157) for a caller buffer of length
`buflen`: loop reading datagrams until one parses to a segment with flag
mask PSH|ACK and matching ports; update the counters (acknowledging the full
payload length), send a pure ACK, and copy `min buflen payload.len()` bytes
out. -/
def tcpRead (ck : CK) (r : Resource) (buflen : Nat) :
    List (Option (List Nat)) → ReadRes
  | [] => .diverge
  | Option.none :: _ => .done Option.none r [] []
  | some bytes :: rest =>
    match from_bytes bytes with
    | .malformed => tcpRead ck r buflen rest
    | .oob => .crash
    | .parsed seg =>
      if flagMask seg = TCP_PSH ||| TCP_ACK ∧
          seg.header.dst = r.host_port ∧ seg.header.src = r.peer_port then
        .done (some (min buflen seg.data.length))
          { r with sequence := seg.header.ack_num
                   acknowledge := (seg.header.sequence + seg.data.length) % 4294967296 }
          [pureAck ck
            { r with sequence := seg.header.ack_num
                     acknowledge := (seg.header.sequence + seg.data.length) % 4294967296 }]
          (seg.data.take buflen)
      else tcpRead ck r buflen rest

/-- Outcome of `Resource::write`. -/
inductive WriteRes where
  | diverge
  | crash
  | done (res : Option Nat) (r : Resource) (sends : List TCP)
deriving DecidableEq

/-- The ACK-wait loop of `Resource::write` (tcp.rs lines 197-217): on a
matching segment with flag mask ACK, update the counters and return the size
reported by the initial IP write; on any other matching segment fail. -/
def writeWait (ck : CK) (r : Resource) (seg0 : TCP) (size : Nat) :
    List (Option (List Nat)) → WriteRes
  | [] => .diverge
  | Option.none :: _ => .done Option.none r [seg0]
  | some bytes :: rest =>
    match from_bytes bytes with
    | .malformed => writeWait ck r seg0 size rest
    | .oob => .crash
    | .parsed seg =>
      if seg.header.dst = r.host_port ∧ seg.header.src = r.peer_port then
        if flagMask seg = TCP_ACK then
          .done (some size)
            { r with sequence := seg.header.ack_num
                     acknowledge := seg.header.sequence }
            [seg0]
        else .done Option.none r [seg0]
      else writeWait ck r seg0 size rest

/-- The operation `Resource::write` (tcp.rs lines 159-220): send one PSH|ACK segment
carrying all of `buf`; if the IP write fails return `None` with the injected
result `wr`, otherwise wait for the ACK. -/
def tcpWrite (ck : CK) (r : Resource) (buf : List Nat) (wr : Option Nat)
    (reads : List (Option (List Nat))) : WriteRes :=
  match wr with
  | Option.none => .done Option.none r [dataSeg ck r buf]
  | some size => writeWait ck r (dataSeg ck r buf) size reads

/-- The seek position argument of `Resource::seek` (redox::io::SeekFrom). -/
inductive SeekFrom where
  | start (n : Nat)
  | current (off : Int)
  | fromEnd (off : Int)
deriving DecidableEq

/-- The operation `Resource::seek` (tcp.rs lines 222-224): `return None`, the state
untouched. -/
def tcpSeek (r : Resource) (_pos : SeekFrom) : Option Nat × Resource :=
  (Option.none, r)

/-- A script entry the establish/write receive loops skip: a datagram that
either fails to parse as too short, or parses to a segment whose ports do not
match the resource. -/
def Discards (r : Resource) (x : Option (List Nat)) : Prop :=
  ∃ b, x = some b ∧
    (from_bytes b = .malformed ∨
      ∃ seg, from_bytes b = .parsed seg ∧
        ¬(seg.header.dst = r.host_port ∧ seg.header.src = r.peer_port))

/-- A script entry the `read` loop skips: too short to parse, or parsed but
not a matching PSH|ACK segment (unlike the other loops, `read` also skips
matching segments with the wrong flags). -/
def DiscardsR (r : Resource) (x : Option (List Nat)) : Prop :=
  ∃ b, x = some b ∧
    (from_bytes b = .malformed ∨
      ∃ seg, from_bytes b = .parsed seg ∧
        ¬(flagMask seg = TCP_PSH ||| TCP_ACK ∧
          seg.header.dst = r.host_port ∧ seg.header.src = r.peer_port))

/-- A trivial checksum function for concrete runs. -/
def exCk : CK := fun _ _ _ => 0

/-- A concrete established-side resource: peer port 80, host port 40000,
sequence 7, acknowledge 0. -/
def exR : Resource :=
  { ip := 1, peer_addr := 2, peer_port := 80, host_port := 40000
    sequence := 7, acknowledge := 0 }

/-- A SYN|ACK datagram from the peer: seq 1000, ack 8, flags `0x5012`. -/
def exSynAckBytes : List Nat :=
  [0, 80, 156, 64, 0, 0, 3, 232, 0, 0, 0, 8, 80, 18, 255, 255, 0, 0, 0, 0]

/-- The parse of `exSynAckBytes`. -/
def exSeg2 : TCP :=
  { header := { src := 80, dst := 40000, sequence := 1000, ack_num := 8, flags := 20498
                window_size := 65535, checksum := 0, urgent_pointer := 0 }
    options := []
    data := [] }

/-- A PSH|ACK datagram from the peer: seq 1000, ack 8, flags `0x5018`,
payload `[10, 20, 30]`. -/
def exPshBytes : List Nat :=
  [0, 80, 156, 64, 0, 0, 3, 232, 0, 0, 0, 8, 80, 24, 255, 255, 0, 0, 0, 0, 10, 20, 30]

/-- The parse of `exPshBytes`. -/
def exSeg3 : TCP :=
  { header := { src := 80, dst := 40000, sequence := 1000, ack_num := 8, flags := 20504
                window_size := 65535, checksum := 0, urgent_pointer := 0 }
    options := []
    data := [10, 20, 30] }

/-- A pure ACK datagram from the peer: seq 1000, ack 8, flags `0x5010`. -/
def exAckBytes : List Nat :=
  [0, 80, 156, 64, 0, 0, 3, 232, 0, 0, 0, 8, 80, 16, 255, 255, 0, 0, 0, 0]

/-! ## File resource (file.rs, lines 224-419)

An open file handle: the backing node, the in-memory buffer `vec`, the
cursor `seek` and the dirty flag.  Names are byte strings modelled as
`List Char`; buffer contents as `List Nat`. -/

/-- A disk extent `{block, length}` (drivers::disk; spec §3): `block = 0` or
`length = 0` marks an unused slot. -/
structure Extent where
  block : Nat
  length : Nat
deriving DecidableEq

/-- The in-memory file node (file.rs lines 37-41). -/
structure FNode where
  block : Nat
  name : List Char
  extents : List Extent
deriving DecidableEq

/-- The structure `FileResource` (file.rs lines 225-231), without the raw scheme
back-reference. -/
structure FileResource where
  node : FNode
  vec : List Nat
  seek : Nat
  dirty : Bool
deriving DecidableEq

/-- The copy loop of `FileResource::read` (file.rs lines 249-257):
`while i < buf.len() && seek < vec.len()`, collecting the copied bytes and
returning them with the final cursor. -/
def readLoop : Nat → List Nat → Nat → List Nat × Nat
  | 0, _, seek => ([], seek)
  | n + 1, vec, seek =>
    if seek < vec.length then
      ((vec.getD seek 0) :: (readLoop n vec (seek + 1)).1, (readLoop n vec (seek + 1)).2)
    else ([], seek)

/-- The operation `FileResource::read` (file.rs lines 248-259) for a caller buffer of
length `buflen`: returns the count `Some i`, the new resource, and the bytes
copied out. -/
def fileRead (f : FileResource) (buflen : Nat) : Nat × FileResource × List Nat :=
  ((readLoop buflen f.vec f.seek).1.length,
    { f with seek := (readLoop buflen f.vec f.seek).2 },
    (readLoop buflen f.vec f.seek).1)

/-- The overwrite loop of `FileResource::write` (file.rs lines 262-267):
`while i < buf.len() && seek < vec.len()` set `vec[seek] = buf[i]`; returns
the updated buffer, the cursor, and the not-yet-written rest of `buf`. -/
def writeLoop1 : List Nat → List Nat → Nat → List Nat × Nat × List Nat
  | [], vec, seek => (vec, seek, [])
  | b :: bs, vec, seek =>
    if seek < vec.length then writeLoop1 bs (vec.set seek b) (seek + 1)
    else (vec, seek, b :: bs)

/-- The operation `FileResource::write` (file.rs lines 261-277): overwrite while the
cursor is inside the buffer, then push the rest (`while i < buf.len()`
drives `i` to `buf.len()`, so the returned count is `buf.len()`); the dirty
flag is set only when `i > 0`. -/
def fileWrite (f : FileResource) (buf : List Nat) : Nat × FileResource :=
  (buf.length,
    { f with vec := (writeLoop1 buf f.vec f.seek).1 ++ (writeLoop1 buf f.vec f.seek).2.2
             seek := (writeLoop1 buf f.vec f.seek).2.1 +
                       (writeLoop1 buf f.vec f.seek).2.2.length
             dirty := if 0 < buf.length then true else f.dirty })

/-- The operation `FileResource::seek` (file.rs lines 279-291): `Start` assigns directly,
`Current`/`End` clamp at 0 from below via `cmp::max(0, …)`; then
`while vec.len() < seek { vec.push(0) }` zero-extends the buffer. -/
def fileSeek (f : FileResource) (pos : SeekFrom) : Nat × FileResource :=
  ((match pos with
    | .start n => n
    | .current off => (max 0 ((f.seek : Int) + off)).toNat
    | .fromEnd off => (max 0 ((f.vec.length : Int) + off)).toNat),
    { f with
        seek := (match pos with
          | .start n => n
          | .current off => (max 0 ((f.seek : Int) + off)).toNat
          | .fromEnd off => (max 0 ((f.vec.length : Int) + off)).toNat)
        vec := f.vec ++ List.replicate
          ((match pos with
            | .start n => n
            | .current off => (max 0 ((f.seek : Int) + off)).toNat
            | .fromEnd off => (max 0 ((f.vec.length : Int) + off)).toNat) - f.vec.length) 0 })

/-- One resource operation, for stating the cursor invariant over arbitrary
operation sequences. -/
inductive FileOp where
  | rd (n : Nat)
  | wr (buf : List Nat)
  | sk (pos : SeekFrom)

/-- Apply one operation to a file resource. -/
def applyOp (f : FileResource) : FileOp → FileResource
  | .rd n => (fileRead f n).2.1
  | .wr buf => (fileWrite f buf).2
  | .sk pos => (fileSeek f pos).2

/-- Apply a sequence of operations. -/
def applyOps (f : FileResource) (ops : List FileOp) : FileResource :=
  ops.foldl applyOp f

/-- The extent walk of `FileResource::sync` (file.rs lines 300-363), on the
persistent state only: for each valid extent, `size = min(remaining,
ceil(length/512)*512)`; the extent's length becomes `size`, `node_dirty` is
set when it changed, and `remaining` decreases by `size`.  Returns the new
extent list, the leftover byte count, and the node-dirty flag. -/
def syncExtents : List Extent → Nat → List Extent × Nat × Bool
  | [], rem => ([], rem, false)
  | e :: es, rem =>
    if 0 < e.block ∧ 0 < e.length then
      (({ e with length := min rem (((e.length + 512 - 1) / 512) * 512) } ::
          (syncExtents es (rem - min rem (((e.length + 512 - 1) / 512) * 512))).1),
        (syncExtents es (rem - min rem (((e.length + 512 - 1) / 512) * 512))).2.1,
        decide (min rem (((e.length + 512 - 1) / 512) * 512) ≠ e.length) ||
          (syncExtents es (rem - min rem (((e.length + 512 - 1) / 512) * 512))).2.2)
    else
      (e :: (syncExtents es rem).1, (syncExtents es rem).2.1, (syncExtents es rem).2.2)

/-- The operation `FileResource::sync` (file.rs lines 296-412), on the persistent state:
when dirty, walk the extents with `remaining = vec.len()`, clear the dirty
flag, and return `false` exactly when bytes remain; when clean, return
`true` unchanged.  The result is `(returned bool, new resource, node_dirty)`. -/
def fileSync (f : FileResource) : Bool × FileResource × Bool :=
  if f.dirty then
    ((if 0 < (syncExtents f.node.extents f.vec.length).2.1 then false else true),
      { f with node := { f.node with extents := (syncExtents f.node.extents f.vec.length).1 }
               dirty := false },
      (syncExtents f.node.extents f.vec.length).2.2)
  else (true, f, false)

/-- Modelled from the spec (§4.3 sync): the slice given to one extent,
`min(remaining, sector_count × 512)` with `sector_count = ⌈length/512⌉`. -/
def specSlice (e : Extent) (rem : Nat) : Nat :=
  min rem (((e.length + 511) / 512) * 512)

/-- Modelled from the spec (§4.3 sync): the extent list after the walk. -/
def specNewExtents : List Extent → Nat → List Extent
  | [], _ => []
  | e :: es, rem =>
    if 0 < e.block ∧ 0 < e.length then
      { e with length := specSlice e rem } :: specNewExtents es (rem - specSlice e rem)
    else e :: specNewExtents es rem

/-- Modelled from the spec (§4.3 sync): the bytes left after all extents. -/
def specLeftover : List Extent → Nat → Nat
  | [], rem => rem
  | e :: es, rem =>
    if 0 < e.block ∧ 0 < e.length then specLeftover es (rem - specSlice e rem)
    else specLeftover es rem

/-- Modelled from the spec (§4.3 sync): whether some extent length changed,
i.e. the node record must be rewritten. -/
def specNodeDirty : List Extent → Nat → Bool
  | [], _ => false
  | e :: es, rem =>
    if 0 < e.block ∧ 0 < e.length then
      decide (specSlice e rem ≠ e.length) || specNodeDirty es (rem - specSlice e rem)
    else specNodeDirty es rem

/-- A dirty file: one 1024-byte extent at block 10, buffer shrunk to 100
bytes (the spec's rewrite-shrinks-an-extent scenario). -/
def exFile5 : FileResource :=
  { node := { block := 5, name := ['h'], extents := [{ block := 10, length := 1024 }] }
    vec := List.replicate 100 7
    seek := 0
    dirty := true }

/-- A small file resource: buffer `[1, 2, 3]`, cursor 1, clean. -/
def exFile9 : FileResource :=
  { node := { block := 0, name := [], extents := [] }
    vec := [1, 2, 3]
    seek := 1
    dirty := false }

/-! ## Directory listing (file.rs, lines 211-221 and 492-528)

Node names are byte strings, modelled as `List Char`. -/

/-- The listing `FileSystem::list` (file.rs lines 211-221): every node name starting
with `directory`, with that prefix stripped. -/
def fsList (nodes : List (List Char)) (dir : List Char) : List (List Char) :=
  nodes.filterMap fun name =>
    if name.take dir.length = dir then some (name.drop dir.length) else none

/-- The search `str::find('/')`: the index of the first slash, if any. -/
def firstSlash : List Char → Option Nat
  | [] => Option.none
  | c :: cs => if c = '/' then some 0 else (firstSlash cs).map (· + 1)

/-- The listing loop of `FileScheme::open` for directories (file.rs lines
498-526): entries containing a `/` are collapsed to `file[.. index + 1]` and
deduplicated through the `dirs` accumulator; entries without a `/` are kept
as they are; empty lines are skipped. -/
def dirLines : List (List Char) → List (List Char) → List (List Char)
  | [], _ => []
  | f :: fs, dirs =>
    match firstSlash f with
    | some i =>
      if f.take (i + 1) ∈ dirs then dirLines fs dirs
      else f.take (i + 1) :: dirLines fs (dirs ++ [f.take (i + 1)])
    | Option.none => if 0 < f.length then f :: dirLines fs dirs else dirLines fs dirs

/-- The directory listing produced by `FileScheme::open` for a prefix:
the lines of the returned resource, in order. -/
def listDir (nodes : List (List Char)) (dir : List Char) : List (List Char) :=
  dirLines (fsList nodes dir) []

/-- Modelled from the spec (§4.1): collapse a stripped remainder to its
first path component plus trailing `/` when it contains a slash. -/
def collapseEntry (f : List Char) : List Char :=
  match firstSlash f with
  | some i => f.take (i + 1)
  | Option.none => f

/-- Modelled from the spec (§4.1): keep the first occurrence of every entry,
dropping later duplicates (`seen` accumulates the entries already kept). -/
def dedupAux : List (List Char) → List (List Char) → List (List Char)
  | [], _ => []
  | x :: xs, seen => if x ∈ seen then dedupAux xs seen else x :: dedupAux xs (x :: seen)

/-- Modelled from the spec (§4.1): duplicates removed on first occurrence. -/
def dedupFirst (l : List (List Char)) : List (List Char) := dedupAux l []

/-- Three node names: `a/b`, `a/c`, `d`. -/
def exNodes7 : List (List Char) := [['a', '/', 'b'], ['a', '/', 'c'], ['d']]

/-! ### Codec lemmas -/

theorem byteAt_append_of_lt (l r : List Nat) (i : Nat) (h : i < l.length) :
    byteAt (l ++ r) i = byteAt l i := by
  unfold byteAt
  rw [List.getD_eq_getElem?_getD, List.getD_eq_getElem?_getD, List.getElem?_append, if_pos h]

theorem toBytes_length (h : TCPHeader) : h.toBytes.length = 20 := by
  cases h
  simp [TCPHeader.toBytes, write16, write32]

theorem readHeader_toBytes (h : TCPHeader) (hwf : h.Wf) (rest : List Nat) :
    readHeader (h.toBytes ++ rest) = h := by
  cases h with
  | mk src dst sequence ack_num flags window_size checksum urgent_pointer =>
    simp only [TCPHeader.Wf] at hwf
    simp only [TCPHeader.toBytes, write16, write32, List.cons_append, List.nil_append,
      readHeader, read16, read32, byteAt, List.getD_cons_zero, List.getD_cons_succ,
      TCPHeader.mk.injEq]
    omega

theorem from_bytes_to_bytes_header (t : TCP) (hwf : t.header.Wf) :
    readHeader (to_bytes t) = t.header := by
  unfold to_bytes
  rw [List.append_assoc]
  exact readHeader_toBytes t.header hwf (t.options ++ t.data)

/-- Claim C1 (amended): `from_bytes` returns `None` below 20 bytes; for an
input of at least 20 bytes it reads the header fields in network byte order
and computes `header_bytes = ((flags & 0xF000) >> 10)`; when
`20 ≤ header_bytes ≤ bytes.len()` it slices options and payload so that
`options ++ payload = bytes[20..]`, `options.len() = header_bytes - 20` and
`payload.len() = bytes.len() - header_bytes`; but when `header_bytes < 20` or
`header_bytes > bytes.len()` the unchecked slice is an out-of-bounds access
rather than a malformed-input rejection. -/
theorem tcp_from_bytes_bounds (bytes : List Nat) :
    (bytes.length < 20 → from_bytes bytes = .malformed)
    ∧ (20 ≤ bytes.length ∧ 20 ≤ headerLen bytes ∧ headerLen bytes ≤ bytes.length →
      from_bytes bytes = .parsed { header := readHeader bytes
                                   options := (bytes.drop 20).take (headerLen bytes - 20)
                                   data := bytes.drop (headerLen bytes) })
    ∧ (20 ≤ bytes.length ∧ (headerLen bytes < 20 ∨ bytes.length < headerLen bytes) →
      from_bytes bytes = .oob)
    ∧ ∀ seg, from_bytes bytes = .parsed seg →
        seg.options ++ seg.data = bytes.drop 20 ∧
        seg.options.length = headerLen bytes - 20 ∧
        seg.data.length = bytes.length - headerLen bytes ∧
        seg.header = readHeader bytes := by
  have hshort : bytes.length < 20 → from_bytes bytes = .malformed := by
    intro h
    unfold from_bytes
    rw [if_neg (by omega)]
  have hin : 20 ≤ bytes.length ∧ 20 ≤ headerLen bytes ∧ headerLen bytes ≤ bytes.length →
      from_bytes bytes = .parsed { header := readHeader bytes
                                   options := (bytes.drop 20).take (headerLen bytes - 20)
                                   data := bytes.drop (headerLen bytes) } := by
    rintro ⟨h20, h⟩
    unfold from_bytes
    rw [if_pos h20, if_pos h, List.drop_take]
  have hout : 20 ≤ bytes.length ∧ (headerLen bytes < 20 ∨ bytes.length < headerLen bytes) →
      from_bytes bytes = .oob := by
    rintro ⟨h20, h⟩
    unfold from_bytes
    rw [if_pos h20, if_neg (by omega)]
  refine ⟨hshort, hin, hout, ?_⟩
  intro seg hseg
  by_cases h20 : 20 ≤ bytes.length
  · by_cases hbr : 20 ≤ headerLen bytes ∧ headerLen bytes ≤ bytes.length
    · rw [hin ⟨h20, hbr⟩] at hseg
      have hseg2 : seg = { header := readHeader bytes
                           options := (bytes.drop 20).take (headerLen bytes - 20)
                           data := bytes.drop (headerLen bytes) } := by
        cases hseg
        rfl
      subst hseg2
      refine ⟨?_, ?_, ?_, rfl⟩
      · have hd : bytes.drop (headerLen bytes) =
            (bytes.drop 20).drop (headerLen bytes - 20) := by
          rw [List.drop_drop]
          congr 1
          omega
        rw [hd, List.take_append_drop]
      · rw [List.length_take, List.length_drop]
        omega
      · rw [List.length_drop]
    · rw [hout ⟨h20, by omega⟩] at hseg
      cases hseg
  · rw [hshort (by omega)] at hseg
    cases hseg

/-- Claim C1 counterexample: 20 zero bytes are at least 20 bytes long, yet
the encoded header length is 0, so the slice `bytes[20..0]` is out of bounds;
the input is neither rejected as malformed nor parsed. -/
theorem tcp_from_bytes_totality_cex :
    from_bytes (List.replicate 20 0) = FromBytesResult.oob ∧
    from_bytes (List.replicate 20 0) ≠ FromBytesResult.malformed ∧
    ∀ t, from_bytes (List.replicate 20 0) ≠ FromBytesResult.parsed t := by
  have h : from_bytes (List.replicate 20 0) = FromBytesResult.oob := by decide
  refine ⟨h, by rw [h]; decide, ?_⟩
  intro t hc
  rw [h] at hc
  cases hc

/-- Witness for the amended claim C1: the concrete 21-byte datagram parses,
and a 1-byte input is rejected as malformed. -/
theorem tcp_from_bytes_bounds_wit :
    from_bytes exBytes1 = FromBytesResult.parsed { header := readHeader exBytes1
                                                   options := []
                                                   data := [99] }
    ∧ from_bytes [0] = FromBytesResult.malformed := by
  constructor
  · have h := (tcp_from_bytes_bounds exBytes1).2.1 (by decide)
    rw [h]
    decide
  · exact (tcp_from_bytes_bounds [0]).1 (by decide)

/-- Claim C8: parsing the serialization of a segment with empty options and
an encoded header length of 20 bytes recovers the original segment. -/
theorem tcp_roundtrip_empty_options (t : TCP) (hwf : t.header.Wf)
    (hopt : t.options = []) (hhl : (t.header.flags &&& 0xF000) >>> 10 = 20) :
    from_bytes (to_bytes t) = FromBytesResult.parsed t := by
  have e1 : to_bytes t = t.header.toBytes ++ t.data := by
    rw [to_bytes, hopt]
    simp
  have hlen : (to_bytes t).length = 20 + t.data.length := by
    rw [e1, List.length_append, toBytes_length]
  have hhdr : readHeader (to_bytes t) = t.header := from_bytes_to_bytes_header t hwf
  have hhl2 : headerLen (to_bytes t) = 20 := by
    rw [headerLen, hhdr]
    exact hhl
  have e2 : (to_bytes t).take 20 = t.header.toBytes := by
    rw [e1, show (20 : Nat) = t.header.toBytes.length from (toBytes_length t.header).symm]
    exact List.take_left _ _
  have e3 : (to_bytes t).drop 20 = t.data := by
    rw [e1, show (20 : Nat) = t.header.toBytes.length from (toBytes_length t.header).symm]
    exact List.drop_left _ _
  unfold from_bytes
  rw [if_pos (by omega), hhl2, if_pos (by omega), e2, e3, hhdr,
    List.drop_eq_nil_of_le (by rw [toBytes_length]), ← hopt]

/-- Witness for claim C8 at a concrete segment. -/
theorem tcp_roundtrip_empty_options_wit :
    from_bytes (to_bytes exSeg8) = FromBytesResult.parsed exSeg8 :=
  tcp_roundtrip_empty_options exSeg8 (by unfold TCPHeader.Wf; decide) rfl (by decide)

theorem estLoop_skip (ck : CK) (r : Resource) (syn : TCP) (x : Option (List Nat))
    (rest : List (Option (List Nat))) (h : Discards r x) :
    estLoop ck r syn (x :: rest) = estLoop ck r syn rest := by
  obtain ⟨b, rfl, hb⟩ := h
  rcases hb with hb | ⟨seg, hseg, hm⟩
  · simp [estLoop, hb]
  · simp [estLoop, hseg, if_neg hm]

theorem estLoop_skip_all (ck : CK) (r : Resource) (syn : TCP)
    (pre rest : List (Option (List Nat))) (h : ∀ x ∈ pre, Discards r x) :
    estLoop ck r syn (pre ++ rest) = estLoop ck r syn rest := by
  induction pre with
  | nil => rfl
  | cons x xs ih =>
    rw [List.cons_append, estLoop_skip ck r syn x (xs ++ rest) (h x (by simp))]
    exact ih fun y hy => h y (by simp [hy])

theorem tcpRead_skip (ck : CK) (r : Resource) (buflen : Nat) (x : Option (List Nat))
    (rest : List (Option (List Nat))) (h : DiscardsR r x) :
    tcpRead ck r buflen (x :: rest) = tcpRead ck r buflen rest := by
  obtain ⟨b, rfl, hb⟩ := h
  rcases hb with hb | ⟨seg, hseg, hm⟩
  · simp [tcpRead, hb]
  · simp [tcpRead, hseg, if_neg hm]

theorem tcpRead_skip_all (ck : CK) (r : Resource) (buflen : Nat)
    (pre rest : List (Option (List Nat))) (h : ∀ x ∈ pre, DiscardsR r x) :
    tcpRead ck r buflen (pre ++ rest) = tcpRead ck r buflen rest := by
  induction pre with
  | nil => rfl
  | cons x xs ih =>
    rw [List.cons_append, tcpRead_skip ck r buflen x (xs ++ rest) (h x (by simp))]
    exact ih fun y hy => h y (by simp [hy])

theorem writeWait_skip (ck : CK) (r : Resource) (seg0 : TCP) (size : Nat)
    (x : Option (List Nat)) (rest : List (Option (List Nat))) (h : Discards r x) :
    writeWait ck r seg0 size (x :: rest) = writeWait ck r seg0 size rest := by
  obtain ⟨b, rfl, hb⟩ := h
  rcases hb with hb | ⟨seg, hseg, hm⟩
  · simp [writeWait, hb]
  · simp [writeWait, hseg, if_neg hm]

theorem writeWait_skip_all (ck : CK) (r : Resource) (seg0 : TCP) (size : Nat)
    (pre rest : List (Option (List Nat))) (h : ∀ x ∈ pre, Discards r x) :
    writeWait ck r seg0 size (pre ++ rest) = writeWait ck r seg0 size rest := by
  induction pre with
  | nil => rfl
  | cons x xs ih =>
    rw [List.cons_append, writeWait_skip ck r seg0 size x (xs ++ rest) (h x (by simp))]
    exact ih fun y hy => h y (by simp [hy])

/-- Claim C2: in every run of `client_establish`, the SYN carrying the
current sequence is the first segment passed to the IP handle; datagrams
that fail to parse or whose ports do not match are discarded while the loop
continues; the first matching segment with flag mask SYN|ACK ends the run
successfully with `sequence = segment.ack_num`,
`acknowledge = segment.sequence + 1` (as a 32-bit counter) and a pure ACK as
the second and last segment sent; any other flag combination on a matching
segment fails, as do a failed IP read and a failed SYN write. -/
theorem tcp_client_establish_spec (ck : CK) (r : Resource) (n : Nat)
    (pre rest : List (Option (List Nat))) (bytes : List Nat) (seg : TCP)
    (hpre : ∀ x ∈ pre, Discards r x)
    (hparse : from_bytes bytes = .parsed seg)
    (hdst : seg.header.dst = r.host_port)
    (hsrc : seg.header.src = r.peer_port) :
    (clientSyn ck r).header.sequence = r.sequence
    ∧ (clientSyn ck r).header.flags = hdrLenBits ||| TCP_SYN
    ∧ (clientSyn ck r).data = []
    ∧ (flagMask seg = TCP_SYN ||| TCP_ACK →
        client_establish ck r (some n) (pre ++ some bytes :: rest) =
          .done true
            { r with sequence := seg.header.ack_num
                     acknowledge := (seg.header.sequence + 1) % 4294967296 }
            [clientSyn ck r,
              pureAck ck { r with sequence := seg.header.ack_num
                                  acknowledge := (seg.header.sequence + 1) % 4294967296 }])
    ∧ (flagMask seg ≠ TCP_SYN ||| TCP_ACK →
        client_establish ck r (some n) (pre ++ some bytes :: rest) =
          .done false r [clientSyn ck r])
    ∧ (∀ rest2, client_establish ck r (some n) (pre ++ Option.none :: rest2) =
        .done false r [clientSyn ck r])
    ∧ client_establish ck r Option.none (pre ++ some bytes :: rest) =
        .done false r [clientSyn ck r]
    ∧ ∀ r2, (pureAck ck r2).header.flags = hdrLenBits ||| TCP_ACK ∧
        (pureAck ck r2).data = [] ∧ (pureAck ck r2).header.sequence = r2.sequence ∧
        (pureAck ck r2).header.ack_num = r2.acknowledge := by
  refine ⟨rfl, rfl, rfl, ?_, ?_, ?_, rfl, fun r2 => ⟨rfl, rfl, rfl, rfl⟩⟩
  · intro hf
    unfold client_establish
    rw [estLoop_skip_all ck r _ pre _ hpre]
    simp only [estLoop, hparse]
    rw [if_pos ⟨hdst, hsrc⟩, if_pos hf]
  · intro hf
    unfold client_establish
    rw [estLoop_skip_all ck r _ pre _ hpre]
    simp only [estLoop, hparse]
    rw [if_pos ⟨hdst, hsrc⟩, if_neg hf]
  · intro rest2
    unfold client_establish
    rw [estLoop_skip_all ck r _ pre _ hpre]
    rfl

/-- Witness for claim C2: the concrete handshake of the spec's scenario,
SYN|ACK with seq 1000 and ack 8 answering our SYN with seq 7. -/
theorem tcp_client_establish_spec_wit :
    client_establish exCk exR (some 40) ([] ++ some exSynAckBytes :: []) =
      EstRes.done true { exR with sequence := 8, acknowledge := 1001 }
        [clientSyn exCk exR,
          pureAck exCk { exR with sequence := 8, acknowledge := 1001 }] := by
  have h := (tcp_client_establish_spec exCk exR 40 [] [] exSynAckBytes exSeg2
    (by simp) (by decide) (by decide) (by decide)).2.2.2.1 (by decide)
  rw [h]
  decide

/-- Claim C3: a successful `read(buf)` terminating on a matching PSH|ACK
segment with payload of length `L` sets `sequence = segment.ack_num` and
`acknowledge = segment.sequence + L` (the full payload length as a 32-bit
counter, even when `L > buf.len()`), sends exactly one pure ACK, returns
`min buf.len() L` and copies exactly the first `min buf.len() L` payload
bytes; bytes beyond `buf.len()` are dropped.  A failed IP read returns
`None`. -/
theorem tcp_read_spec (ck : CK) (r : Resource) (buflen : Nat)
    (pre rest : List (Option (List Nat))) (bytes : List Nat) (seg : TCP)
    (hpre : ∀ x ∈ pre, DiscardsR r x)
    (hparse : from_bytes bytes = .parsed seg)
    (hflags : flagMask seg = TCP_PSH ||| TCP_ACK)
    (hdst : seg.header.dst = r.host_port)
    (hsrc : seg.header.src = r.peer_port) :
    tcpRead ck r buflen (pre ++ some bytes :: rest) =
      .done (some (min buflen seg.data.length))
        { r with sequence := seg.header.ack_num
                 acknowledge := (seg.header.sequence + seg.data.length) % 4294967296 }
        [pureAck ck { r with sequence := seg.header.ack_num
                             acknowledge := (seg.header.sequence + seg.data.length) % 4294967296 }]
        (seg.data.take buflen)
    ∧ (seg.data.take buflen).length = min buflen seg.data.length
    ∧ seg.data.take buflen = seg.data.take (min buflen seg.data.length)
    ∧ ∀ rest2, tcpRead ck r buflen (pre ++ Option.none :: rest2) =
        .done Option.none r [] [] := by
  refine ⟨?_, ?_, ?_, ?_⟩
  · rw [tcpRead_skip_all ck r buflen pre _ hpre]
    simp only [tcpRead, hparse]
    rw [if_pos ⟨hflags, hdst, hsrc⟩]
  · rw [List.length_take]
  · rcases Nat.le_total buflen seg.data.length with hle | hle
    · rw [Nat.min_eq_left hle]
    · rw [Nat.min_eq_right hle, List.take_of_length_le hle,
        List.take_of_length_le (Nat.le_refl _)]
  · intro rest2
    rw [tcpRead_skip_all ck r buflen pre _ hpre]
    rfl

/-- Witness for claim C3: the spec's truncation scenario scaled down — a
PSH|ACK segment carrying 3 bytes read into a 2-byte buffer returns 2,
acknowledges all 3 payload bytes, and sends one pure ACK. -/
theorem tcp_read_spec_wit :
    tcpRead exCk exR 2 ([] ++ some exPshBytes :: []) =
      ReadRes.done (some 2) { exR with sequence := 8, acknowledge := 1003 }
        [pureAck exCk { exR with sequence := 8, acknowledge := 1003 }] [10, 20] := by
  have h := (tcp_read_spec exCk exR 2 [] [] exPshBytes exSeg3
    (by simp) (by decide) (by decide) (by decide) (by decide)).1
  rw [h]
  decide

/-- Claim C4 (amended): a successful `write(buf)` sends exactly one PSH|ACK
segment whose payload is all of `buf` and whose header carries the current
counters; on the first matching segment, flag mask ACK updates
`sequence = segment.ack_num`, `acknowledge = segment.sequence` and returns
the size reported by the underlying IP write of the serialized segment —
not `buf.len()`; any other flag value on a matching segment, a failed IP
read, and a failed IP write all return `None`. -/
theorem tcp_write_spec (ck : CK) (r : Resource) (buf : List Nat) (n : Nat)
    (pre rest : List (Option (List Nat))) (bytes : List Nat) (seg : TCP)
    (hpre : ∀ x ∈ pre, Discards r x)
    (hparse : from_bytes bytes = .parsed seg)
    (hdst : seg.header.dst = r.host_port)
    (hsrc : seg.header.src = r.peer_port) :
    (dataSeg ck r buf).data = buf
    ∧ (dataSeg ck r buf).header.flags = hdrLenBits ||| (TCP_PSH ||| TCP_ACK)
    ∧ (dataSeg ck r buf).header.sequence = r.sequence
    ∧ (dataSeg ck r buf).header.ack_num = r.acknowledge
    ∧ (flagMask seg = TCP_ACK →
        tcpWrite ck r buf (some n) (pre ++ some bytes :: rest) =
          .done (some n) { r with sequence := seg.header.ack_num
                                  acknowledge := seg.header.sequence }
            [dataSeg ck r buf])
    ∧ (flagMask seg ≠ TCP_ACK →
        tcpWrite ck r buf (some n) (pre ++ some bytes :: rest) =
          .done Option.none r [dataSeg ck r buf])
    ∧ (∀ rest2, tcpWrite ck r buf (some n) (pre ++ Option.none :: rest2) =
        .done Option.none r [dataSeg ck r buf])
    ∧ tcpWrite ck r buf Option.none (pre ++ some bytes :: rest) =
        .done Option.none r [dataSeg ck r buf] := by
  refine ⟨rfl, rfl, rfl, rfl, ?_, ?_, ?_, rfl⟩
  · intro hf
    show writeWait ck r (dataSeg ck r buf) n (pre ++ some bytes :: rest) = _
    rw [writeWait_skip_all ck r _ n pre _ hpre]
    simp only [writeWait, hparse]
    rw [if_pos ⟨hdst, hsrc⟩, if_pos hf]
  · intro hf
    show writeWait ck r (dataSeg ck r buf) n (pre ++ some bytes :: rest) = _
    rw [writeWait_skip_all ck r _ n pre _ hpre]
    simp only [writeWait, hparse]
    rw [if_pos ⟨hdst, hsrc⟩, if_neg hf]
  · intro rest2
    show writeWait ck r (dataSeg ck r buf) n (pre ++ Option.none :: rest2) = _
    rw [writeWait_skip_all ck r _ n pre _ hpre]
    rfl

/-- Claim C4 counterexample: with the IP layer reporting the number of bytes
it wrote — the length of the serialized segment, 21 bytes for a 1-byte
payload — a successful write returns `Some 21`, not `buf.len() = 1`. -/
theorem tcp_write_buflen_cex :
    tcpWrite exCk exR [7] (some (to_bytes (dataSeg exCk exR [7])).length)
        [some exAckBytes] =
      WriteRes.done (some 21) { exR with sequence := 8, acknowledge := 1000 }
        [dataSeg exCk exR [7]]
    ∧ (21 : Nat) ≠ ([(7 : Nat)] : List Nat).length := by
  exact ⟨by decide, by decide⟩

/-- Witness for the amended claim C4 at the concrete run used by the
counterexample. -/
theorem tcp_write_spec_wit :
    tcpWrite exCk exR [7] (some 21) ([] ++ some exAckBytes :: []) =
      WriteRes.done (some 21) { exR with sequence := 8, acknowledge := 1000 }
        [dataSeg exCk exR [7]] := by
  have h := (tcp_write_spec exCk exR [7] 21 [] [] exAckBytes
    { header := { src := 80, dst := 40000, sequence := 1000, ack_num := 8, flags := 20496
                  window_size := 65535, checksum := 0, urgent_pointer := 0 }
      options := [], data := [] }
    (by simp) (by decide) (by decide) (by decide)).2.2.2.2.1 (by decide)
  rw [h]

/-- Claim C10: `Resource::seek` returns `None` for every position argument
and leaves every component of the connection state unchanged. -/
theorem tcp_seek_noop (r : Resource) (pos : SeekFrom) :
    (tcpSeek r pos).1 = Option.none ∧
    (tcpSeek r pos).2.ip = r.ip ∧
    (tcpSeek r pos).2.peer_addr = r.peer_addr ∧
    (tcpSeek r pos).2.peer_port = r.peer_port ∧
    (tcpSeek r pos).2.host_port = r.host_port ∧
    (tcpSeek r pos).2.sequence = r.sequence ∧
    (tcpSeek r pos).2.acknowledge = r.acknowledge ∧
    (tcpSeek r pos).2 = r :=
  ⟨rfl, rfl, rfl, rfl, rfl, rfl, rfl, rfl⟩

/-! ### File resource lemmas -/

theorem readLoop_eq (n : Nat) (vec : List Nat) (seek : Nat) :
    readLoop n vec seek = ((vec.drop seek).take n, seek + min n (vec.length - seek)) := by
  induction n generalizing seek with
  | zero =>
    simp [readLoop]
  | succ n ih =>
    by_cases h : seek < vec.length
    · simp only [readLoop, if_pos h, ih (seek + 1)]
      rw [List.drop_eq_getElem_cons h, List.take_succ_cons, List.getD_eq_getElem vec 0 h]
      simp only [Prod.mk.injEq]
      exact ⟨trivial, by omega⟩
    · simp only [readLoop, if_neg h]
      rw [List.drop_eq_nil_of_le (by omega)]
      simp
      omega

theorem writeLoop1_eq (buf vec : List Nat) (seek : Nat) (h : seek ≤ vec.length) :
    writeLoop1 buf vec seek =
      (vec.take seek ++ buf.take (min buf.length (vec.length - seek)) ++
          vec.drop (seek + min buf.length (vec.length - seek)),
        seek + min buf.length (vec.length - seek),
        buf.drop (min buf.length (vec.length - seek))) := by
  induction buf generalizing vec seek with
  | nil =>
    simp [writeLoop1, List.take_append_drop]
  | cons b bs ih =>
    by_cases h2 : seek < vec.length
    · have hlen : (vec.set seek b).length = vec.length := List.length_set vec seek b
      have hmin : min (b :: bs).length (vec.length - seek) =
          min bs.length (vec.length - (seek + 1)) + 1 := by
        simp only [List.length_cons]
        omega
      simp only [writeLoop1, if_pos h2]
      rw [ih (vec.set seek b) (seek + 1) (by omega)]
      rw [hlen, hmin]
      have hset : vec.set seek b = vec.take seek ++ b :: vec.drop (seek + 1) := by
        rw [List.set_eq_take_append_cons_drop, if_pos h2]
      have htk : (vec.set seek b).take (seek + 1) = vec.take seek ++ [b] := by
        rw [hset]
        have hlt : (vec.take seek).length = seek := by
          rw [List.length_take]
          omega
        rw [show seek + 1 = (vec.take seek).length + 1 by omega, List.take_append]
        simp
      have hdp : ∀ m, seek < m → (vec.set seek b).drop m = vec.drop m := by
        intro m hm
        exact List.drop_set_of_lt b vec hm
      rw [htk, hdp (seek + 1 + min bs.length (vec.length - (seek + 1))) (by omega)]
      simp only [Prod.mk.injEq]
      refine ⟨?_, by omega, rfl⟩
      rw [List.take_succ_cons]
      have : seek + 1 + min bs.length (vec.length - (seek + 1)) =
          seek + (min bs.length (vec.length - (seek + 1)) + 1) := by omega
      rw [this]
      simp [List.append_assoc]
    · have hseq : seek = vec.length := by omega
      simp only [writeLoop1, if_neg h2]
      have hmin : min (b :: bs).length (vec.length - seek) = 0 := by
        simp only [List.length_cons]
        omega
      rw [hmin]
      simp [hseq, List.take_length]

theorem fileWrite_eq (f : FileResource) (buf : List Nat) (h : f.seek ≤ f.vec.length) :
    fileWrite f buf =
      (buf.length,
        { f with vec := f.vec.take f.seek ++ buf ++ f.vec.drop (f.seek + buf.length)
                 seek := f.seek + buf.length
                 dirty := if 0 < buf.length then true else f.dirty }) := by
  unfold fileWrite
  rw [writeLoop1_eq buf f.vec f.seek h]
  rcases Nat.le_total buf.length (f.vec.length - f.seek) with hk | hk
  · have hmin : min buf.length (f.vec.length - f.seek) = buf.length := Nat.min_eq_left hk
    rw [hmin, List.take_length, List.drop_length]
    simp
  · have hmin : min buf.length (f.vec.length - f.seek) = f.vec.length - f.seek :=
      Nat.min_eq_right hk
    rw [hmin]
    have hd1 : f.vec.drop (f.seek + (f.vec.length - f.seek)) = [] :=
      List.drop_eq_nil_of_le (by omega)
    have hd2 : f.vec.drop (f.seek + buf.length) = [] :=
      List.drop_eq_nil_of_le (by omega)
    rw [hd1, hd2]
    simp only [Prod.mk.injEq, FileResource.mk.injEq, List.append_nil, true_and, and_true]
    constructor
    · rw [List.append_assoc, List.take_append_drop]
    · rw [List.length_drop]
      omega

theorem syncExtents_eq (es : List Extent) (rem : Nat) :
    syncExtents es rem = (specNewExtents es rem, specLeftover es rem, specNodeDirty es rem) := by
  induction es generalizing rem with
  | nil => rfl
  | cons e es ih =>
    have h512 : e.length + 512 - 1 = e.length + 511 := by omega
    by_cases h : 0 < e.block ∧ 0 < e.length
    · simp only [syncExtents, specNewExtents, specLeftover, specNodeDirty, specSlice,
        if_pos h, h512, ih]
    · simp only [syncExtents, specNewExtents, specLeftover, specNodeDirty, specSlice,
        if_neg h, ih]

/-- Claim C5: a `sync` of a dirty resource walks the non-empty extents in
order, gives each one the slice `min(remaining, sector_count × 512)` as its
new `length_bytes` (flagging a node rewrite whenever this changed the
length), clears the resource's dirty flag, and returns `true` exactly when
no bytes remain after the walk — `false` indicates data loss while the dirty
flag stays cleared.  The buffer and cursor are untouched. -/
theorem file_sync_extents_spec (f : FileResource) (hd : f.dirty = true) :
    (fileSync f).2.1.dirty = false
    ∧ (fileSync f).2.1.node.extents = specNewExtents f.node.extents f.vec.length
    ∧ (fileSync f).2.2 = specNodeDirty f.node.extents f.vec.length
    ∧ ((fileSync f).1 = true ↔ specLeftover f.node.extents f.vec.length = 0)
    ∧ (0 < specLeftover f.node.extents f.vec.length →
        (fileSync f).1 = false ∧ (fileSync f).2.1.dirty = false)
    ∧ (fileSync f).2.1.vec = f.vec ∧ (fileSync f).2.1.seek = f.seek
    ∧ (fileSync f).2.1.node.block = f.node.block
    ∧ (fileSync f).2.1.node.name = f.node.name := by
  unfold fileSync
  rw [if_pos hd, syncExtents_eq]
  refine ⟨rfl, rfl, rfl, ?_, ?_, rfl, rfl, rfl, rfl⟩
  · rcases Nat.eq_zero_or_pos (specLeftover f.node.extents f.vec.length) with h | h
    · rw [h]
      simp
    · rw [if_pos h]
      simp
      omega
  · intro h
    rw [if_pos h]
    exact ⟨rfl, rfl⟩

/-- Witness for claim C5: syncing `exFile5` shrinks the extent to 100 bytes,
flags the node rewrite, clears the dirty flag and returns `true`. -/
theorem file_sync_extents_spec_wit :
    (fileSync exFile5).2.1.dirty = false
    ∧ (fileSync exFile5).1 = true
    ∧ (fileSync exFile5).2.1.node.extents = [{ block := 10, length := 100 }]
    ∧ (fileSync exFile5).2.2 = true := by
  have h := file_sync_extents_spec exFile5 rfl
  refine ⟨h.1, h.2.2.2.1.mpr (by decide), ?_, ?_⟩
  · rw [h.2.1]
    decide
  · rw [h.2.2.1]
    decide

/-! ### Cursor invariant lemmas -/

theorem fileSeek_inv (f : FileResource) (pos : SeekFrom) :
    (fileSeek f pos).2.seek ≤ (fileSeek f pos).2.vec.length := by
  cases pos <;>
    simp [fileSeek, List.length_append, List.length_replicate] <;> omega

theorem fileRead_inv (f : FileResource) (n : Nat) (h : f.seek ≤ f.vec.length) :
    (fileRead f n).2.1.seek ≤ (fileRead f n).2.1.vec.length := by
  have hs : (fileRead f n).2.1.seek = f.seek + min n (f.vec.length - f.seek) := by
    simp [fileRead, readLoop_eq]
  have hv : (fileRead f n).2.1.vec = f.vec := by
    simp [fileRead, readLoop_eq]
  rw [hs, hv]
  omega

theorem fileWrite_inv (f : FileResource) (buf : List Nat) (h : f.seek ≤ f.vec.length) :
    (fileWrite f buf).2.seek ≤ (fileWrite f buf).2.vec.length := by
  rw [fileWrite_eq f buf h]
  simp [List.length_append, List.length_take, List.length_drop]
  omega

theorem applyOp_inv (f : FileResource) (op : FileOp) (h : f.seek ≤ f.vec.length) :
    (applyOp f op).seek ≤ (applyOp f op).vec.length := by
  cases op with
  | rd n => exact fileRead_inv f n h
  | wr buf => exact fileWrite_inv f buf h
  | sk pos => exact fileSeek_inv f pos

/-- Claim C6: starting from any file resource satisfying
`cursor ≤ buffer.len()`, the invariant holds after any sequence of read,
write and seek operations; `seek` re-establishes it unconditionally
(clamping `Current`/`End` at 0 from below, assigning `Start` without an
upper clamp, and zero-extending the buffer up to the new cursor), and read
and write preserve it. -/
theorem file_cursor_inv (f : FileResource) (ops : List FileOp)
    (h : f.seek ≤ f.vec.length) :
    (applyOps f ops).seek ≤ (applyOps f ops).vec.length
    ∧ (∀ (g : FileResource) (pos : SeekFrom),
        (fileSeek g pos).2.seek ≤ (fileSeek g pos).2.vec.length)
    ∧ (∀ (g : FileResource) (off : Int),
        ((fileSeek g (.current off)).1 : Int) = max 0 ((g.seek : Int) + off))
    ∧ (∀ (g : FileResource) (off : Int),
        ((fileSeek g (.fromEnd off)).1 : Int) = max 0 ((g.vec.length : Int) + off))
    ∧ (∀ (g : FileResource) (n : Nat), (fileSeek g (.start n)).2.seek = n ∧
        (fileSeek g (.start n)).2.vec = g.vec ++ List.replicate (n - g.vec.length) 0)
    ∧ (∀ (g : FileResource) (n : Nat), g.seek ≤ g.vec.length →
        (fileRead g n).2.1.seek ≤ (fileRead g n).2.1.vec.length)
    ∧ (∀ (g : FileResource) (buf : List Nat), g.seek ≤ g.vec.length →
        (fileWrite g buf).2.seek ≤ (fileWrite g buf).2.vec.length) := by
  refine ⟨?_, fileSeek_inv, ?_, ?_, fun g n => ⟨rfl, rfl⟩, fileRead_inv, fileWrite_inv⟩
  · induction ops generalizing f with
    | nil => exact h
    | cons op ops ih => exact ih (applyOp f op) (applyOp_inv f op h)
  · intro g off
    exact Int.toNat_of_nonneg (le_max_left 0 _)
  · intro g off
    exact Int.toNat_of_nonneg (le_max_left 0 _)

/-- Witness for claim C6: the invariant after a concrete seek-write-read
sequence on `exFile9`. -/
theorem file_cursor_inv_wit :
    (applyOps exFile9 [.sk (.start 5), .wr [9], .rd 2]).seek ≤
      (applyOps exFile9 [.sk (.start 5), .wr [9], .rd 2]).vec.length :=
  (file_cursor_inv exFile9 [.sk (.start 5), .wr [9], .rd 2] (by decide)).1

/-- Claim C9 (amended): `write(buf)` on a resource with `cursor ≤
buffer.len()` overwrites within `[cursor, buffer.len())`, appends beyond the
end, advances the cursor by `buf.len()` and returns exactly `buf.len()`; it
sets the dirty flag when `buf` is nonempty, but an empty write leaves the
dirty flag unchanged. -/
theorem file_write_spec (f : FileResource) (buf : List Nat)
    (h : f.seek ≤ f.vec.length) :
    (fileWrite f buf).1 = buf.length
    ∧ (fileWrite f buf).2.seek = f.seek + buf.length
    ∧ (fileWrite f buf).2.vec =
        f.vec.take f.seek ++ buf ++ f.vec.drop (f.seek + buf.length)
    ∧ (buf ≠ [] → (fileWrite f buf).2.dirty = true)
    ∧ (buf = [] → (fileWrite f buf).2.dirty = f.dirty)
    ∧ (fileWrite f buf).2.vec.length = max f.vec.length (f.seek + buf.length) := by
  rw [fileWrite_eq f buf h]
  refine ⟨rfl, rfl, rfl, ?_, ?_, ?_⟩
  · intro hb
    simp only []
    rw [if_pos (List.length_pos.mpr hb)]
  · intro hb
    subst hb
    simp
  · simp [List.length_append, List.length_take, List.length_drop]
    omega

/-- Claim C9 counterexample: an empty write on a clean resource leaves the
dirty flag `false` — the claim's "sets the dirty flag" fails for `buf = []`. -/
theorem file_write_dirty_cex :
    (fileWrite exFile9 []).2.dirty = false
    ∧ exFile9.dirty = false
    ∧ (fileWrite exFile9 []).2 = exFile9 := by
  exact ⟨by decide, by decide, by decide⟩

/-- Witness for the amended claim C9: writing `[9, 9]` at cursor 1 of
`[1, 2, 3]` yields buffer `[1, 9, 9]`, cursor 3, dirty set, count 2. -/
theorem file_write_spec_wit :
    (fileWrite exFile9 [9, 9]).1 = 2
    ∧ (fileWrite exFile9 [9, 9]).2.vec = [1, 9, 9]
    ∧ (fileWrite exFile9 [9, 9]).2.seek = 3
    ∧ (fileWrite exFile9 [9, 9]).2.dirty = true := by
  have h := file_write_spec exFile9 [9, 9] (by decide)
  refine ⟨h.1, ?_, ?_, h.2.2.2.1 (by decide)⟩
  · rw [h.2.2.1]
    decide
  · rw [h.2.1]
    decide

/-! ### Directory listing lemmas -/

theorem firstSlash_none_iff (f : List Char) : firstSlash f = Option.none ↔ '/' ∉ f := by
  induction f with
  | nil => simp [firstSlash]
  | cons c cs ih =>
    by_cases hc : c = '/'
    · subst hc
      simp [firstSlash]
    · rw [firstSlash, if_neg hc]
      simp only [Option.map_eq_none', ih, List.mem_cons]
      constructor
      · intro h hm
        rcases hm with hm | hm
        · exact hc hm.symm
        · exact h hm
      · intro h hm
        exact h (Or.inr hm)

theorem firstSlash_some_split (f : List Char) (i : Nat) (h : firstSlash f = some i) :
    ∃ p, f.take (i + 1) = p ++ ['/'] ∧ '/' ∉ p := by
  induction f generalizing i with
  | nil => cases h
  | cons c cs ih =>
    by_cases hc : c = '/'
    · subst hc
      rw [firstSlash, if_pos rfl] at h
      cases h
      exact ⟨[], rfl, by simp⟩
    · rw [firstSlash, if_neg hc] at h
      cases hcs : firstSlash cs with
      | none =>
        rw [hcs] at h
        cases h
      | some j =>
        rw [hcs] at h
        simp only [Option.map_some', Option.some.injEq] at h
        obtain ⟨p, hp, hnp⟩ := ih j hcs
        refine ⟨c :: p, ?_, ?_⟩
        · rw [← h, List.take_succ_cons, hp]
          rfl
        · simp only [List.mem_cons]
          rintro (h1 | h2)
          · exact hc h1.symm
          · exact hnp h2

theorem dedupAux_subset (l seen : List (List Char)) (x : List Char)
    (h : x ∈ dedupAux l seen) : x ∈ l := by
  induction l generalizing seen with
  | nil => cases h
  | cons y ys ih =>
    by_cases hy : y ∈ seen
    · rw [dedupAux, if_pos hy] at h
      exact List.mem_cons_of_mem y (ih seen h)
    · rw [dedupAux, if_neg hy] at h
      rcases List.mem_cons.mp h with h | h
      · exact h ▸ List.mem_cons_self y ys
      · exact List.mem_cons_of_mem y (ih (y :: seen) h)

theorem mem_dedupAux (l seen : List (List Char)) (x : List Char) (hx : x ∈ l) :
    x ∈ dedupAux l seen ∨ x ∈ seen := by
  induction l generalizing seen with
  | nil => cases hx
  | cons y ys ih =>
    by_cases hy : y ∈ seen
    · rw [dedupAux, if_pos hy]
      rcases List.mem_cons.mp hx with rfl | hx
      · exact Or.inr hy
      · exact ih seen hx
    · rw [dedupAux, if_neg hy]
      rcases List.mem_cons.mp hx with rfl | hx
      · exact Or.inl (List.mem_cons_self x _)
      · rcases ih (y :: seen) hx with h | h
        · exact Or.inl (List.mem_cons_of_mem y h)
        · rcases List.mem_cons.mp h with rfl | h
          · exact Or.inl (List.mem_cons_self x _)
          · exact Or.inr h

theorem dedupAux_nodup (l seen : List (List Char)) :
    (dedupAux l seen).Nodup ∧ ∀ x ∈ seen, x ∉ dedupAux l seen := by
  induction l generalizing seen with
  | nil => exact ⟨List.nodup_nil, by simp [dedupAux]⟩
  | cons y ys ih =>
    by_cases hy : y ∈ seen
    · rw [dedupAux, if_pos hy]
      exact (ih seen)
    · rw [dedupAux, if_neg hy]
      have ihy := ih (y :: seen)
      refine ⟨List.nodup_cons.mpr ⟨ihy.2 y (List.mem_cons_self y seen), ihy.1⟩, ?_⟩
      intro x hx
      simp only [List.mem_cons, not_or]
      constructor
      · intro hxy
        exact hy (hxy ▸ hx)
      · exact ihy.2 x (List.mem_cons_of_mem y hx)

theorem dirLines_eq_dedup (fs : List (List Char)) (dirs seen : List (List Char))
    (h1 : ∀ f ∈ fs, f ≠ [])
    (h2 : fs.Nodup)
    (h3 : ∀ f ∈ fs, firstSlash f = Option.none → f ∉ seen)
    (h4 : ∀ d, '/' ∈ d → (d ∈ dirs ↔ d ∈ seen)) :
    dirLines fs dirs = dedupAux (fs.map collapseEntry) seen := by
  induction fs generalizing dirs seen with
  | nil => rfl
  | cons f fs ih =>
    have h1t : ∀ g ∈ fs, g ≠ [] := fun g hg => h1 g (List.mem_cons_of_mem f hg)
    have h2t : fs.Nodup := (List.nodup_cons.mp h2).2
    cases hfs : firstSlash f with
    | some i =>
      obtain ⟨p, hp, hnp⟩ := firstSlash_some_split f i hfs
      have hslash : '/' ∈ f.take (i + 1) := by
        rw [hp]
        simp
      have hcoll : collapseEntry f = f.take (i + 1) := by
        rw [collapseEntry, hfs]
      by_cases hd : f.take (i + 1) ∈ dirs
      · have hseen : collapseEntry f ∈ seen := by
          rw [hcoll]
          exact (h4 _ hslash).mp hd
        rw [dirLines, hfs]
        simp only [if_pos hd]
        rw [List.map_cons, dedupAux, if_pos hseen]
        exact ih dirs seen h1t h2t
          (fun g hg hgn => h3 g (List.mem_cons_of_mem f hg) hgn) h4
      · have hseen : collapseEntry f ∉ seen := by
          rw [hcoll]
          intro hc
          exact hd ((h4 _ hslash).mpr hc)
        rw [dirLines, hfs]
        simp only [if_neg hd]
        rw [List.map_cons, dedupAux, if_neg hseen, hcoll]
        congr 1
        apply ih (dirs ++ [f.take (i + 1)]) (f.take (i + 1) :: seen) h1t h2t
        · intro g hg hgn
          simp only [List.mem_cons, not_or]
          constructor
          · intro hgt
            have : '/' ∉ g := (firstSlash_none_iff g).mp hgn
            exact this (hgt ▸ hslash)
          · exact h3 g (List.mem_cons_of_mem f hg) hgn
        · intro d hdm
          simp only [List.mem_append, List.mem_cons, List.mem_singleton,
            List.not_mem_nil, or_false]
          rw [h4 d hdm]
          tauto
    | none =>
      have hne : f ≠ [] := h1 f (List.mem_cons_self f fs)
      have hlen : 0 < f.length := List.length_pos.mpr hne
      have hcoll : collapseEntry f = f := by
        rw [collapseEntry, hfs]
      have hseen : f ∉ seen := h3 f (List.mem_cons_self f fs) hfs
      rw [dirLines, hfs]
      simp only [if_pos hlen]
      rw [List.map_cons, hcoll, dedupAux, if_neg hseen]
      congr 1
      apply ih dirs (f :: seen) h1t h2t
      · intro g hg hgn
        simp only [List.mem_cons, not_or]
        constructor
        · intro hgf
          exact (List.nodup_cons.mp h2).1 (hgf ▸ hg)
        · exact h3 g (List.mem_cons_of_mem f hg) hgn
      · intro d hdm
        rw [h4 d hdm, List.mem_cons]
        have hdf : ¬ d = f := fun hdf => ((firstSlash_none_iff f).mp hfs) (hdf ▸ hdm)
        tauto

theorem fsList_nodup (nodes : List (List Char)) (dir : List Char) (h : nodes.Nodup) :
    (fsList nodes dir).Nodup := by
  refine List.Nodup.filterMap ?_ h
  intro a a2 c hc1 hc2
  by_cases ha : a.take dir.length = dir
  · rw [if_pos ha] at hc1
    by_cases ha2 : a2.take dir.length = dir
    · rw [if_pos ha2] at hc2
      simp only [Option.mem_def, Option.some.injEq] at hc1 hc2
      have e1 : a = dir ++ c := by
        conv_lhs => rw [← List.take_append_drop dir.length a]
        rw [ha, hc1]
      have e2 : a2 = dir ++ c := by
        conv_lhs => rw [← List.take_append_drop dir.length a2]
        rw [ha2, hc2]
      rw [e1, e2]
    · rw [if_neg ha2] at hc2
      cases hc2
  · rw [if_neg ha] at hc1
    cases hc1

theorem mem_fsList (nodes : List (List Char)) (dir : List Char) (x : List Char) :
    x ∈ fsList nodes dir ↔
      ∃ nm ∈ nodes, nm.take dir.length = dir ∧ x = nm.drop dir.length := by
  rw [fsList, List.mem_filterMap]
  constructor
  · rintro ⟨nm, hnm, hx⟩
    by_cases hn : nm.take dir.length = dir
    · rw [if_pos hn] at hx
      exact ⟨nm, hnm, hn, (Option.some.injEq _ _).mp hx |>.symm⟩
    · rw [if_neg hn] at hx
      cases hx
  · rintro ⟨nm, hnm, hn, rfl⟩
    exact ⟨nm, hnm, by rw [if_pos hn]⟩

theorem dirLines_drop_empty (fs dirs : List (List Char)) :
    dirLines fs dirs = dirLines (fs.filter fun f => !f.isEmpty) dirs := by
  induction fs generalizing dirs with
  | nil => rfl
  | cons f fs ih =>
    by_cases hf : f = []
    · subst hf
      rw [List.filter_cons_of_neg (by decide)]
      rw [dirLines]
      simp only [firstSlash]
      rw [if_neg (by simp)]
      exact ih dirs
    · rw [List.filter_cons_of_pos (by simp [hf])]
      cases hfs : firstSlash f with
      | some i =>
        rw [dirLines, dirLines, hfs]
        by_cases hd : f.take (i + 1) ∈ dirs
        · simp only [if_pos hd]
          exact ih dirs
        · simp only [if_neg hd]
          rw [ih (dirs ++ [f.take (i + 1)])]
      | none =>
        simp only [dirLines, hfs, if_pos (List.length_pos.mpr hf)]
        rw [ih dirs]

/-- Claim C7 (amended): for a node list with pairwise-distinct names, the
directory listing for a prefix equals the collapsed nonempty remainders of
the matching names deduplicated on first occurrence in node-list order; it
has no duplicates; every entry is nonempty and either contains no `/` or
ends with `/`; every entry comes from a matching node, and every matching
node whose name strictly extends the prefix contributes its collapsed
remainder.  (A node whose name equals the prefix exactly is dropped as an
empty line, and duplicate node names would produce duplicate plain entries,
since the source deduplicates only the collapsed directory entries.) -/
theorem fs_list_dir_spec (nodes : List (List Char)) (dir : List Char)
    (hnd : nodes.Nodup) :
    listDir nodes dir =
      dedupFirst (((fsList nodes dir).filter (fun f => !f.isEmpty)).map collapseEntry)
    ∧ (listDir nodes dir).Nodup
    ∧ (∀ x ∈ listDir nodes dir, x ≠ [] ∧ ('/' ∉ x ∨ x.getLast? = some '/'))
    ∧ (∀ x ∈ listDir nodes dir, ∃ nm ∈ nodes,
        nm.take dir.length = dir ∧ x = collapseEntry (nm.drop dir.length))
    ∧ ∀ nm ∈ nodes, nm.take dir.length = dir → dir.length < nm.length →
        collapseEntry (nm.drop dir.length) ∈ listDir nodes dir := by
  have h1 : ∀ f ∈ (fsList nodes dir).filter (fun f => !f.isEmpty), f ≠ [] := by
    intro f hf
    have := (List.mem_filter.mp hf).2
    simpa using this
  have h1b : ∀ f ∈ (fsList nodes dir).filter (fun f => !f.isEmpty), f ∈ fsList nodes dir :=
    fun f hf => (List.mem_filter.mp hf).1
  have heq : listDir nodes dir =
      dedupFirst (((fsList nodes dir).filter (fun f => !f.isEmpty)).map collapseEntry) := by
    rw [listDir, dirLines_drop_empty]
    exact dirLines_eq_dedup _ [] [] h1 ((fsList_nodup nodes dir hnd).filter _)
      (by intro f hf hfn; simp) (by intro d hdm; simp)
  have hshape : ∀ f : List Char, f ≠ [] →
      collapseEntry f ≠ [] ∧
        ('/' ∉ collapseEntry f ∨ (collapseEntry f).getLast? = some '/') := by
    intro f hf
    cases hfs : firstSlash f with
    | some i =>
      obtain ⟨p, hp, hnp⟩ := firstSlash_some_split f i hfs
      simp only [collapseEntry, hfs]
      rw [hp]
      exact ⟨by simp, Or.inr (List.getLast?_concat p)⟩
    | none =>
      simp only [collapseEntry, hfs]
      exact ⟨hf, Or.inl ((firstSlash_none_iff f).mp hfs)⟩
  refine ⟨heq, ?_, ?_, ?_, ?_⟩
  · rw [heq]
    exact (dedupAux_nodup _ []).1
  · intro x hx
    rw [heq] at hx
    have hx2 := dedupAux_subset _ [] x hx
    obtain ⟨f, hf, rfl⟩ := List.mem_map.mp hx2
    exact hshape f (h1 f hf)
  · intro x hx
    rw [heq] at hx
    have hx2 := dedupAux_subset _ [] x hx
    obtain ⟨f, hf, rfl⟩ := List.mem_map.mp hx2
    obtain ⟨nm, hnm, htk, rfl⟩ := (mem_fsList nodes dir f).mp (h1b f hf)
    exact ⟨nm, hnm, htk, rfl⟩
  · intro nm hnm htk hlt
    have hne : nm.drop dir.length ≠ [] := by
      have hl : 0 < (nm.drop dir.length).length := by
        rw [List.length_drop]
        omega
      exact List.length_pos.mp hl
    have hf : nm.drop dir.length ∈ (fsList nodes dir).filter (fun f => !f.isEmpty) :=
      List.mem_filter.mpr ⟨(mem_fsList nodes dir _).mpr ⟨nm, hnm, htk, rfl⟩, by simpa⟩
    have hm := List.mem_map_of_mem collapseEntry hf
    rcases mem_dedupAux _ [] _ hm with hmem | hmem
    · rw [heq]
      exact hmem
    · exact absurd hmem (List.not_mem_nil _)

/-- Claim C7 counterexample: two nodes with the same name `a` produce the
listing `[a, a]`, which contains a duplicate — only collapsed directory
entries are deduplicated, not plain entries. -/
theorem fs_list_dir_dup_cex :
    listDir [['a'], ['a']] [] = [['a'], ['a']]
    ∧ ¬ (listDir [['a'], ['a']] []).Nodup := by
  exact ⟨by decide, by decide⟩

/-- Witness for the amended claim C7: the spec's directory-collapse
scenario, nodes `a/b`, `a/c`, `d` listed at the root give `[a/, d]`; and a
node whose name equals the prefix is dropped as an empty line. -/
theorem fs_list_dir_spec_wit :
    listDir exNodes7 [] =
      dedupFirst (((fsList exNodes7 []).filter (fun f => !f.isEmpty)).map collapseEntry)
    ∧ listDir exNodes7 [] = [['a', '/'], ['d']]
    ∧ listDir [['a', '/']] ['a', '/'] = [] := by
  have h := fs_list_dir_spec exNodes7 [] (by decide)
  have h2 := fs_list_dir_spec [['a', '/']] ['a', '/'] (by decide)
  refine ⟨h.1, by decide, ?_⟩
  rw [h2.1]
  decide
